import Mathlib

/-!
Verification of the dual network-propagation core of the HAB pipeline
(`scripts/diamond.py` and the GUILD/RWR half of `scripts/analisis_funcional.py`).

The Python source is shallowly embedded: node identifiers are `String`,
graphs are an explicit node list plus an edge list, Python sets become
`Finset`/membership-filtered lists, NumPy floats become `ℚ`, and the two
bounded loops (the DIAMOnD expansion `for i in range(200)` and the RWR
`for _ in range(max_iter)`) become fuel-indexed structural recursions with
the same iteration counts and the same early exits.
-/

namespace HAB

/-! ## Identifier normalizer

`diamond.py` line 55-56 and `analisis_funcional.py` line 204 define the same
canonicalizer (`limpiar_id` resp. `_clean`):

    def limpiar_id(g):
        return g.split(".")[0] if g.count(".") > 1 else g

`g.split(".")[0]` is the prefix of `g` before the *first* dot. -/

/-- Embedding of `limpiar_id` / `_clean`: when the identifier holds strictly
more than one dot, keep only the part before the first dot; otherwise return
it unchanged. -/
def limpiar_id (g : String) : String :=
  if g.toList.count '.' > 1 then String.mk (g.toList.takeWhile (fun c => c ≠ '.')) else g

/-! ## Hypergeometric tail (`calc_pval`, diamond.py lines 81-85)

`scipy.stats.hypergeom.sf(k, M, K, n)` is `P(X > k)` for the hypergeometric
distribution with population `M`, `K` success states and `n` draws; the code
calls it at `k_s - 1`, an `Int`, since `k_s` may in principle be `0`. -/

/-- Hypergeometric probability mass `P(X = j)` with population `M`,
`K` success states and `n` draws, as scipy computes it
(`C(K,j)·C(M-K,n-j)/C(M,n)`; out-of-support `j` gives `0` via `Nat.choose`). -/
def hyperPMF (M K n j : ℕ) : ℚ :=
  ((K.choose j : ℚ) * ((M - K).choose (n - j) : ℚ)) / (M.choose n : ℚ)

/-- `scipy.stats.hypergeom.sf k M K n = P(X > k)`, summed over the support
`0 ≤ j ≤ n` of the draw count. -/
def hypergeom_sf (k : ℤ) (M K n : ℕ) : ℚ :=
  ∑ j ∈ Finset.range (n + 1), if k < (j : ℤ) then hyperPMF M K n j else 0

/-- The upper tail `P(X ≥ ks)` of the same distribution, written the way the
spec states it.  The claim is that `calc_pval` computes exactly this. -/
def tailProb (ks M K n : ℕ) : ℚ :=
  ∑ j ∈ Finset.range (n + 1), if ks ≤ j then hyperPMF M K n j else 0

/-! ## Graph model

`networkx.Graph` as both scripts use it: an undirected graph with opaque
string node identifiers, queried only through `G.nodes()`, `G.neighbors(n)`,
`G.number_of_nodes()` and the derived degree.  We carry the node list (the
graph's iteration order) and the edge list the graph was built from. -/

structure Graph where
  nodes : List String
  edges : List (String × String)

/-- Undirected adjacency: some edge joins `u` and `v` in either direction. -/
def Graph.adjB (G : Graph) (u v : String) : Bool :=
  G.edges.any (fun e => (e.1 == u && e.2 == v) || (e.1 == v && e.2 == u))

/-- `set(G.neighbors(u))`, enumerated in the graph's node order. -/
def Graph.neighbors (G : Graph) (u : String) : List String :=
  G.nodes.filter (fun v => G.adjB u v)

/-- `degrees[n] = len(neighbors[n])` (diamond.py line 79). -/
def Graph.degree (G : Graph) (u : String) : ℕ :=
  (G.neighbors u).length

/-! ## DIAMOnD (`ejecutar_diamond`, diamond.py lines 74-117) -/

/-- diamond.py lines 81-85:

    def calc_pval(node):
        k_i = degrees[node]
        k_s = len(neighbors[node] & semillas)
        return hypergeom.sf(k_s - 1, N, K, k_i), k_s

`modulo` is the current value of the mutable set `semillas` (seeds plus the
nodes added so far); `N` and `K` are fixed before the loop (lines 74-75). -/
def calc_pval (G : Graph) (N K : ℕ) (modulo : List String) (node : String) : ℚ × ℕ :=
  let k_i := G.degree node
  let k_s := ((G.neighbors node).filter (fun m => modulo.contains m)).length
  (hypergeom_sf ((k_s : ℤ) - 1) N K k_i, k_s)

/-- C2: the p-value `calc_pval` returns is the hypergeometric upper tail
`P(X ≥ k_s)` with population `N`, `K` success states and `k_i = degree node`
draws: evaluating the survival function at `k_s - 1` keeps `k_s` itself in
the tail. -/
theorem calc_pval_eq_tailProb (G : Graph) (N K : ℕ) (modulo : List String) (node : String) :
    (calc_pval G N K modulo node).1 =
      tailProb (calc_pval G N K modulo node).2 N K (G.degree node) := by
  have h : ∀ (k M S n : ℕ), hypergeom_sf ((k : ℤ) - 1) M S n = tailProb k M S n := by
    intro k M S n
    unfold hypergeom_sf tailProb
    refine Finset.sum_congr rfl (fun j _ => ?_)
    have hiff : ((k : ℤ) - 1 < (j : ℤ)) ↔ (k ≤ j) := by omega
    simp only [hiff]
  exact h (calc_pval G N K modulo node).2 N K (G.degree node)

/-! ## C1: what the canonicalizer actually strips

The spec says `canonical` "strips the last dot-segment"; `split(".")[0]`
keeps only the segment before the *first* dot. -/

/-- C1 (amended): on an identifier with strictly more than one dot,
`limpiar_id` returns the dot-free prefix before the *first* dot — the rest of
the identifier, starting at that first dot, is discarded; identifiers with at
most one dot are returned unchanged. -/
theorem limpiar_id_first_segment (g : String) :
    (g.toList.count '.' > 1 →
      '.' ∉ (limpiar_id g).toList ∧
      ∃ rest, g.toList = (limpiar_id g).toList ++ '.' :: rest) ∧
    (g.toList.count '.' ≤ 1 → limpiar_id g = g) := by
  have hp : ∀ c : Char, (fun c => decide (c ≠ '.')) c = true ↔ c ≠ '.' := by
    intro c; simp
  constructor
  · intro hgt
    have hlim : (limpiar_id g).toList = g.toList.takeWhile (fun c => decide (c ≠ '.')) := by
      unfold limpiar_id
      rw [if_pos hgt]
      rfl
    constructor
    · intro hmem
      rw [hlim] at hmem
      have := List.mem_takeWhile_imp hmem
      exact (hp '.').mp this rfl
    · -- the dropped part must start with a dot, since g holds at least one dot
      have hdot : '.' ∈ g.toList := by
        by_contra hno
        have : g.toList.count '.' = 0 := List.count_eq_zero.mpr hno
        omega
      have hsplit := List.takeWhile_append_dropWhile
        (p := fun c => decide (c ≠ '.')) (l := g.toList)
      have hdropne : g.toList.dropWhile (fun c => decide (c ≠ '.')) ≠ [] := by
        intro hnil
        rw [← hsplit, hnil, List.append_nil] at hdot
        have := List.mem_takeWhile_imp hdot
        exact (hp '.').mp this rfl
      obtain ⟨c, rest, hcr⟩ := List.exists_cons_of_ne_nil hdropne
      have hc : c = '.' := by
        have hhd := List.head_dropWhile_not (fun c => decide (c ≠ '.')) g.toList hdropne
        have hceq : (g.toList.dropWhile (fun c => decide (c ≠ '.'))).head hdropne = c := by
          simp only [hcr, List.head_cons]
        rw [hceq] at hhd
        by_contra hne
        simp [hne] at hhd
      refine ⟨rest, ?_⟩
      rw [hlim]
      conv_lhs => rw [← hsplit]
      rw [hcr, hc]
  · intro hle
    unfold limpiar_id
    rw [if_neg (by omega)]

/-- C1 counterexample: on `"3702.AT1G54410.2"` (two dots) the code keeps only
`"3702"`, not the spec's `"3702.AT1G54410"`; the one-dot example
`"AT1G54410.2"` is indeed left unchanged. -/
theorem limpiar_id_spec_example_fails :
    limpiar_id "3702.AT1G54410.2" = "3702" ∧
    limpiar_id "3702.AT1G54410.2" ≠ "3702.AT1G54410" ∧
    limpiar_id "AT1G54410.2" = "AT1G54410.2" := by
  refine ⟨?_, ?_, ?_⟩ <;> decide

/-- Witness for `limpiar_id_first_segment` at the concrete identifiers
`"a.b.c"` (two dots) and `"x.y"` (one dot). -/
theorem limpiar_id_first_segment_witness :
    ('.' ∉ (limpiar_id "a.b.c").toList ∧
      ∃ rest, "a.b.c".toList = (limpiar_id "a.b.c").toList ++ '.' :: rest) ∧
    limpiar_id "x.y" = "x.y" :=
  ⟨(limpiar_id_first_segment "a.b.c").1 (by decide),
   (limpiar_id_first_segment "x.y").2 (by decide)⟩

/-! ## The DIAMOnD expansion loop (diamond.py lines 87-117)

State of the mutable variables of `ejecutar_diamond`: the growing module
(`semillas`, a set the code only tests membership in), the candidate
frontier, and the `results` list of added `(gene, p, k_s)` triples.  Sets
become membership-deduplicated lists; the loop `for i in range(200)` becomes
fuel. -/

inductive StopReason where
  | sinCandidatos
  | noSignificativo
  | limite100
  | limite200
deriving DecidableEq

structure DState where
  semillas : List String
  candidatos : List String
  results : List (String × ℚ × ℕ)
deriving DecidableEq

/-- Python's `min(pvals, key=lambda x: x[1])`: the first element attaining
the minimal p-value, `x` being the element seen before the remainder `xs`. -/
def minByPval (x : String × ℚ × ℕ) (xs : List (String × ℚ × ℕ)) : String × ℚ × ℕ :=
  xs.foldl (fun best y => if y.2.1 < best.2.1 then y else best) x

/-- The candidate `min` picks out of the frontier `c :: cs`:
`min(pvals, key=lambda x: x[1])` over `pvals = [(node, *calc_pval(node)) for node in candidatos]`. -/
def diamondBest (G : Graph) (N K : ℕ) (semillas : List String) (c : String) (cs : List String) :
    String × ℚ × ℕ :=
  minByPval (c, calc_pval G N K semillas c)
    (cs.map (fun node => (node, calc_pval G N K semillas node)))

/-- One successful addition (diamond.py lines 104-107): add `best` to the
module, append its triple to `results`, extend the frontier with the new
node's neighbours and remove module members from it. -/
def diamondAdd (G : Graph) (sem : List String) (c : String) (cs : List String)
    (res : List (String × ℚ × ℕ)) (best : String × ℚ × ℕ) : DState :=
  let semillas' := sem ++ [best.1]
  ⟨semillas',
   ((c :: cs) ++ (G.neighbors best.1).filter (fun v => !(c :: cs).contains v)).filter
     (fun v => !semillas'.contains v),
   res ++ [(best.1, best.2.1, best.2.2)]⟩

/-- The loop `for i in range(200)` of diamond.py lines 93-117, with fuel in
place of the remaining range.  Returns the final state, the recorded stop
reason (`motivo_parada`; exhausted fuel is the post-loop
"Límite de 200 iteraciones alcanzado" branch) and the number of loop passes
executed. -/
def diamondLoop (G : Graph) (N K : ℕ) : ℕ → DState → DState × StopReason × ℕ
  | 0, st => (st, .limite200, 0)
  | fuel + 1, st =>
    match st.candidatos with
    | [] => (st, .sinCandidatos, 1)
    | c :: cs =>
      let best := diamondBest G N K st.semillas c cs
      if best.2.1 > 1/20 then (st, .noSignificativo, 1)
      else
        let st' := diamondAdd G st.semillas c cs st.results best
        if 100 ≤ st'.results.length then (st', .limite100, 1)
        else
          let out := diamondLoop G N K fuel st'
          (out.1, out.2.1, out.2.2 + 1)

/-- `ejecutar_diamond` from the reconciled seed set on: fix `K` and `N`
(lines 74-75), build the initial frontier
`set().union(*[neighbors[g] for g in semillas]) - semillas` (line 88) and run
the 200-pass loop on empty `results`. -/
def ejecutar_diamond (G : Graph) (semillas : List String) : DState × StopReason × ℕ :=
  let K := semillas.length
  let N := G.nodes.length
  let candidatos := G.nodes.filter
    (fun n => (semillas.any (fun s => G.adjB s n)) && !semillas.contains n)
  diamondLoop G N K 200 ⟨semillas, candidatos, []⟩

/-! Step equations of `diamondLoop`, one per branch of the loop body. -/

theorem diamondLoop_zero (G : Graph) (N K : ℕ) (st : DState) :
    diamondLoop G N K 0 st = (st, .limite200, 0) := rfl

theorem diamondLoop_nil (G : Graph) (N K fuel : ℕ) (sem : List String)
    (res : List (String × ℚ × ℕ)) :
    diamondLoop G N K (fuel + 1) ⟨sem, [], res⟩ = (⟨sem, [], res⟩, .sinCandidatos, 1) := rfl

theorem diamondLoop_nosig (G : Graph) (N K fuel : ℕ) (sem : List String) (c : String)
    (cs : List String) (res : List (String × ℚ × ℕ))
    (hsig : (diamondBest G N K sem c cs).2.1 > 1/20) :
    diamondLoop G N K (fuel + 1) ⟨sem, c :: cs, res⟩ =
      (⟨sem, c :: cs, res⟩, .noSignificativo, 1) := by
  simp only [diamondLoop]
  rw [if_pos hsig]

theorem diamondLoop_stop100 (G : Graph) (N K fuel : ℕ) (sem : List String) (c : String)
    (cs : List String) (res : List (String × ℚ × ℕ))
    (hsig : ¬ (diamondBest G N K sem c cs).2.1 > 1/20)
    (h100 : 100 ≤ (diamondAdd G sem c cs res (diamondBest G N K sem c cs)).results.length) :
    diamondLoop G N K (fuel + 1) ⟨sem, c :: cs, res⟩ =
      (diamondAdd G sem c cs res (diamondBest G N K sem c cs), .limite100, 1) := by
  simp only [diamondLoop]
  rw [if_neg hsig, if_pos h100]

theorem diamondLoop_continue (G : Graph) (N K fuel : ℕ) (sem : List String) (c : String)
    (cs : List String) (res : List (String × ℚ × ℕ))
    (hsig : ¬ (diamondBest G N K sem c cs).2.1 > 1/20)
    (h100 : ¬ 100 ≤ (diamondAdd G sem c cs res (diamondBest G N K sem c cs)).results.length) :
    diamondLoop G N K (fuel + 1) ⟨sem, c :: cs, res⟩ =
      (let out := diamondLoop G N K fuel (diamondAdd G sem c cs res (diamondBest G N K sem c cs))
       (out.1, out.2.1, out.2.2 + 1)) := by
  simp only [diamondLoop]
  rw [if_neg hsig, if_neg h100]

theorem diamondAdd_results (G : Graph) (sem : List String) (c : String) (cs : List String)
    (res : List (String × ℚ × ℕ)) (best : String × ℚ × ℕ) :
    (diamondAdd G sem c cs res best).results = res ++ [(best.1, best.2.1, best.2.2)] := rfl

/-- `min(pvals, key=lambda x: x[1])` really attains the smallest p-value. -/
theorem minByPval_le (xs : List (String × ℚ × ℕ)) :
    ∀ (x : String × ℚ × ℕ), ∀ y ∈ x :: xs, (minByPval x xs).2.1 ≤ y.2.1 := by
  induction xs with
  | nil =>
    intro x y hy
    rcases List.mem_cons.mp hy with h | h
    · subst h; exact le_refl _
    · cases h
  | cons z zs ih =>
    intro x y hy
    have hfold : minByPval x (z :: zs) = minByPval (if z.2.1 < x.2.1 then z else x) zs := rfl
    have hminle : (minByPval (if z.2.1 < x.2.1 then z else x) zs).2.1 ≤
        (if z.2.1 < x.2.1 then z else x).2.1 :=
      ih _ _ (List.mem_cons_self _ _)
    rcases List.mem_cons.mp hy with h | h
    · rw [h, hfold]
      refine le_trans hminle ?_
      by_cases hzx : z.2.1 < x.2.1
      · rw [if_pos hzx]; exact le_of_lt hzx
      · rw [if_neg hzx]
    · rcases List.mem_cons.mp h with h2 | h2
      · rw [h2, hfold]
        refine le_trans hminle ?_
        by_cases hzx : z.2.1 < x.2.1
        · rw [if_pos hzx]
        · rw [if_neg hzx]; exact le_of_not_lt hzx
      · rw [hfold]
        exact ih _ y (List.mem_cons_of_mem _ h2)

/-- Loop invariant: the loop only ever appends triples whose p-value passed
the `pval > 0.05` gate. -/
theorem diamondLoop_results_le (G : Graph) (N K : ℕ) :
    ∀ (fuel : ℕ) (st : DState), (∀ r ∈ st.results, r.2.1 ≤ 1/20) →
      ∀ r ∈ (diamondLoop G N K fuel st).1.results, r.2.1 ≤ 1/20 := by
  intro fuel
  induction fuel with
  | zero => intro st h; exact h
  | succ fuel ih =>
    intro st h
    obtain ⟨sem, cands, res⟩ := st
    cases cands with
    | nil => exact h
    | cons c cs =>
      by_cases hsig : (diamondBest G N K sem c cs).2.1 > 1/20
      · rw [diamondLoop_nosig G N K fuel sem c cs res hsig]
        exact h
      · have hext : ∀ r ∈ (diamondAdd G sem c cs res (diamondBest G N K sem c cs)).results,
            r.2.1 ≤ 1/20 := by
          intro r hr
          rw [diamondAdd_results] at hr
          rcases List.mem_append.mp hr with h1 | h1
          · exact h r h1
          · rcases List.mem_singleton.mp h1 with rfl
            exact le_of_not_lt hsig
        by_cases h100 : 100 ≤ (diamondAdd G sem c cs res (diamondBest G N K sem c cs)).results.length
        · rw [diamondLoop_stop100 G N K fuel sem c cs res hsig h100]
          exact hext
        · rw [diamondLoop_continue G N K fuel sem c cs res hsig h100]
          exact ih _ hext

/-- Loop invariant: the pass counter never exceeds the fuel. -/
theorem diamondLoop_iters_le (G : Graph) (N K : ℕ) :
    ∀ (fuel : ℕ) (st : DState), (diamondLoop G N K fuel st).2.2 ≤ fuel := by
  intro fuel
  induction fuel with
  | zero => intro st; exact le_refl 0
  | succ fuel ih =>
    intro st
    obtain ⟨sem, cands, res⟩ := st
    cases cands with
    | nil =>
      rw [diamondLoop_nil]
      show (1 : ℕ) ≤ fuel + 1
      omega
    | cons c cs =>
      by_cases hsig : (diamondBest G N K sem c cs).2.1 > 1/20
      · rw [diamondLoop_nosig G N K fuel sem c cs res hsig]
        show (1 : ℕ) ≤ fuel + 1
        omega
      · by_cases h100 : 100 ≤ (diamondAdd G sem c cs res (diamondBest G N K sem c cs)).results.length
        · rw [diamondLoop_stop100 G N K fuel sem c cs res hsig h100]
          show (1 : ℕ) ≤ fuel + 1
          omega
        · rw [diamondLoop_continue G N K fuel sem c cs res hsig h100]
          have := ih (diamondAdd G sem c cs res (diamondBest G N K sem c cs))
          show (diamondLoop G N K fuel (diamondAdd G sem c cs res (diamondBest G N K sem c cs))).2.2 + 1 ≤ fuel + 1
          omega

/-- Loop invariant: starting below the 100-additions cap, the loop never
exceeds it. -/
theorem diamondLoop_results_bound (G : Graph) (N K : ℕ) :
    ∀ (fuel : ℕ) (st : DState), st.results.length < 100 →
      (diamondLoop G N K fuel st).1.results.length ≤ 100 := by
  intro fuel
  induction fuel with
  | zero => intro st h; exact le_of_lt h
  | succ fuel ih =>
    intro st h
    obtain ⟨sem, cands, res⟩ := st
    cases cands with
    | nil => rw [diamondLoop_nil]; exact le_of_lt h
    | cons c cs =>
      by_cases hsig : (diamondBest G N K sem c cs).2.1 > 1/20
      · rw [diamondLoop_nosig G N K fuel sem c cs res hsig]; exact le_of_lt h
      · have hlen : (diamondAdd G sem c cs res (diamondBest G N K sem c cs)).results.length =
            res.length + 1 := by
          rw [diamondAdd_results]; simp
        have h' : res.length < 100 := h
        by_cases h100 : 100 ≤ (diamondAdd G sem c cs res (diamondBest G N K sem c cs)).results.length
        · rw [diamondLoop_stop100 G N K fuel sem c cs res hsig h100]
          show (diamondAdd G sem c cs res (diamondBest G N K sem c cs)).results.length ≤ 100
          omega
        · rw [diamondLoop_continue G N K fuel sem c cs res hsig h100]
          exact ih _ (by omega)

/-- Loop invariant: with enough fuel to reach the 100-additions cap and at
least one pass of fuel left, the loop cannot end in the fuel-exhausted
(200-iterations) branch. -/
theorem diamondLoop_no_limite200 (G : Graph) (N K : ℕ) :
    ∀ (fuel : ℕ) (st : DState), 100 ≤ st.results.length + fuel → 1 ≤ fuel →
      (diamondLoop G N K fuel st).2.1 ≠ .limite200 := by
  intro fuel
  induction fuel with
  | zero => intro st _ h1; omega
  | succ fuel ih =>
    intro st hfuel _
    obtain ⟨sem, cands, res⟩ := st
    cases cands with
    | nil => rw [diamondLoop_nil]; intro hc; cases hc
    | cons c cs =>
      by_cases hsig : (diamondBest G N K sem c cs).2.1 > 1/20
      · rw [diamondLoop_nosig G N K fuel sem c cs res hsig]; intro hc; cases hc
      · have hlen : (diamondAdd G sem c cs res (diamondBest G N K sem c cs)).results.length =
            res.length + 1 := by
          rw [diamondAdd_results]; simp
        by_cases h100 : 100 ≤ (diamondAdd G sem c cs res (diamondBest G N K sem c cs)).results.length
        · rw [diamondLoop_stop100 G N K fuel sem c cs res hsig h100]; intro hc; cases hc
        · rw [diamondLoop_continue G N K fuel sem c cs res hsig h100]
          have hfuel' : 100 ≤ res.length + (fuel + 1) := hfuel
          exact ih _ (by omega) (by omega)

/-- C3: every triple the DIAMOnD run records has p-value at most 0.05; and
whenever the frontier's minimal p-value (the one `min` selects, which
`minByPval_le`-style bounds every candidate) exceeds 0.05, the loop returns
at once with the not-significant stop reason and an unchanged state, so the
candidate is not added. -/
theorem diamond_pvalue_threshold :
    (∀ (G : Graph) (semillas : List String),
        ∀ r ∈ (ejecutar_diamond G semillas).1.results, r.2.1 ≤ 1/20) ∧
    (∀ (G : Graph) (N K : ℕ) (sem : List String) (c : String) (cs : List String),
        ∀ y ∈ (c :: cs).map (fun node => (node, calc_pval G N K sem node)),
          (diamondBest G N K sem c cs).2.1 ≤ y.2.1) ∧
    (∀ (G : Graph) (N K fuel : ℕ) (st : DState) (c : String) (cs : List String),
        st.candidatos = c :: cs →
        (diamondBest G N K st.semillas c cs).2.1 > 1/20 →
        diamondLoop G N K (fuel + 1) st = (st, .noSignificativo, 1)) := by
  refine ⟨?_, ?_, ?_⟩
  · intro G semillas r hr
    exact diamondLoop_results_le G G.nodes.length semillas.length 200
      ⟨semillas,
       G.nodes.filter (fun n => (semillas.any (fun s => G.adjB s n)) && !semillas.contains n),
       []⟩
      (by intro r h; cases h) r hr
  · intro G N K sem c cs y hy
    have : (c :: cs).map (fun node => (node, calc_pval G N K sem node)) =
        (c, calc_pval G N K sem c) :: cs.map (fun node => (node, calc_pval G N K sem node)) := rfl
    rw [this] at hy
    exact minByPval_le _ _ y hy
  · intro G N K fuel st c cs hc hsig
    obtain ⟨sem, cands, res⟩ := st
    simp only at hc hsig
    subst hc
    exact diamondLoop_nosig G N K fuel sem c cs res hsig

/-- A 7-node graph with edges `s1 - c`, `s2 - c` and seeds `s1, s2`: the
candidate `c` scores `p = 1/C(7,2) = 1/21 ≤ 0.05` and is added. -/
def Gsig : Graph := ⟨["s1", "s2", "c", "x1", "x2", "x3", "x4"], [("s1", "c"), ("s2", "c")]⟩

/-- A 2-node graph with edge `a - b` and seed `a`: the candidate `b` scores
`p = 1/2 > 0.05`, so the run must stop without adding it. -/
def Gnosig : Graph := ⟨["a", "b"], [("a", "b")]⟩

theorem calc_pval_Gsig : calc_pval Gsig 7 2 ["s1", "s2"] "c" = (1/21, 2) := by
  have h1 : Gsig.degree "c" = 2 := by decide
  have h2 : ((Gsig.neighbors "c").filter (fun m => (["s1", "s2"]).contains m)).length = 2 := by
    decide
  simp only [calc_pval, h1, h2]
  have hs : hypergeom_sf (((2 : ℕ) : ℤ) - 1) 7 2 2 = 1/21 := by
    rw [hypergeom_sf, Finset.sum_range_succ, Finset.sum_range_succ, Finset.sum_range_one]
    norm_num [hyperPMF, show Nat.choose 2 2 = 1 from rfl, show Nat.choose 5 0 = 1 from rfl,
      show Nat.choose 7 2 = 21 from rfl]
  rw [hs]

theorem calc_pval_Gnosig : calc_pval Gnosig 2 1 ["a"] "b" = (1/2, 1) := by
  have h1 : Gnosig.degree "b" = 1 := by decide
  have h2 : ((Gnosig.neighbors "b").filter (fun m => (["a"]).contains m)).length = 1 := by
    decide
  simp only [calc_pval, h1, h2]
  have hs : hypergeom_sf (((1 : ℕ) : ℤ) - 1) 2 1 1 = 1/2 := by
    rw [hypergeom_sf, Finset.sum_range_succ, Finset.sum_range_one]
    norm_num [hyperPMF, show Nat.choose 1 1 = 1 from rfl, show Nat.choose 1 0 = 1 from rfl,
      show Nat.choose 2 1 = 2 from rfl]
  rw [hs]

theorem diamondBest_Gsig : diamondBest Gsig 7 2 ["s1", "s2"] "c" [] = ("c", 1/21, 2) := by
  show ("c", calc_pval Gsig 7 2 ["s1", "s2"] "c") = (("c", 1/21, 2) : String × ℚ × ℕ)
  rw [calc_pval_Gsig]

/-- Full evaluation of the DIAMOnD run on `Gsig`: one addition, then the
frontier runs dry. -/
theorem ejecutar_diamond_Gsig :
    ejecutar_diamond Gsig ["s1", "s2"] =
      (⟨["s1", "s2", "c"], [], [("c", 1/21, 2)]⟩, .sinCandidatos, 2) := by
  have hstart : ejecutar_diamond Gsig ["s1", "s2"] =
      diamondLoop Gsig 7 2 200 ⟨["s1", "s2"], ["c"], []⟩ := rfl
  have hsig : ¬ (diamondBest Gsig 7 2 ["s1", "s2"] "c" []).2.1 > 1/20 := by
    rw [diamondBest_Gsig]
    norm_num
  have h100 : ¬ 100 ≤ (diamondAdd Gsig ["s1", "s2"] "c" [] []
      (diamondBest Gsig 7 2 ["s1", "s2"] "c" [])).results.length := by
    rw [diamondAdd_results]
    norm_num
  have hstep : diamondLoop Gsig 7 2 200 ⟨["s1", "s2"], ["c"], []⟩ =
      (let out := diamondLoop Gsig 7 2 199
         (diamondAdd Gsig ["s1", "s2"] "c" [] [] (diamondBest Gsig 7 2 ["s1", "s2"] "c" []))
       (out.1, out.2.1, out.2.2 + 1)) :=
    diamondLoop_continue Gsig 7 2 199 ["s1", "s2"] "c" [] [] hsig h100
  have hadd : diamondAdd Gsig ["s1", "s2"] "c" [] []
      (diamondBest Gsig 7 2 ["s1", "s2"] "c" []) =
      ⟨["s1", "s2", "c"], [], [("c", 1/21, 2)]⟩ := by
    rw [diamondBest_Gsig]
    rfl
  have hnil : diamondLoop Gsig 7 2 199 ⟨["s1", "s2", "c"], [], [("c", 1/21, 2)]⟩ =
      (⟨["s1", "s2", "c"], [], [("c", 1/21, 2)]⟩, .sinCandidatos, 1) :=
    diamondLoop_nil Gsig 7 2 198 ["s1", "s2", "c"] [("c", 1/21, 2)]
  rw [hstart, hstep, hadd, hnil]

/-- Witness for `diamond_pvalue_threshold`: the triple DIAMOnD records on
`Gsig` carries `p = 1/21 ≤ 0.05`; on `Gnosig` the selected candidate has the
frontier's smallest p-value, it exceeds `0.05`, and the loop stops
not-significant with the state unchanged. -/
theorem diamond_pvalue_threshold_witness :
    ((("c", 1/21, 2) : String × ℚ × ℕ).2.1 ≤ 1/20) ∧
    (diamondBest Gnosig 2 1 ["a"] "b" []).2.1 ≤
      (("b", calc_pval Gnosig 2 1 ["a"] "b") : String × ℚ × ℕ).2.1 ∧
    diamondLoop Gnosig 2 1 1 ⟨["a"], ["b"], []⟩ =
      (⟨["a"], ["b"], []⟩, .noSignificativo, 1) :=
  ⟨diamond_pvalue_threshold.1 Gsig ["s1", "s2"] ("c", 1/21, 2)
     (by rw [ejecutar_diamond_Gsig]; exact List.mem_singleton.mpr rfl),
   diamond_pvalue_threshold.2.1 Gnosig 2 1 ["a"] "b" []
     ("b", calc_pval Gnosig 2 1 ["a"] "b") (List.mem_singleton.mpr rfl),
   diamond_pvalue_threshold.2.2 Gnosig 2 1 0 ⟨["a"], ["b"], []⟩ "b" [] rfl
     (by show (calc_pval Gnosig 2 1 ["a"] "b").1 > 1/20
         rw [calc_pval_Gnosig]
         norm_num)⟩

/-- C7: on every finite graph and seed list the DIAMOnD run terminates after
at most 200 loop passes with at most 100 added nodes; the fuel structure of
`diamondLoop` makes any earlier stop condition cut both counts short. -/
theorem diamond_terminates_within_limits (G : Graph) (semillas : List String) :
    (ejecutar_diamond G semillas).2.2 ≤ 200 ∧
    (ejecutar_diamond G semillas).1.results.length ≤ 100 :=
  ⟨diamondLoop_iters_le G G.nodes.length semillas.length 200
     ⟨semillas,
      G.nodes.filter (fun n => (semillas.any (fun s => G.adjB s n)) && !semillas.contains n),
      []⟩,
   diamondLoop_results_bound G G.nodes.length semillas.length 200
     ⟨semillas,
      G.nodes.filter (fun n => (semillas.any (fun s => G.adjB s n)) && !semillas.contains n),
      []⟩
     (by show (0 : ℕ) < 100; omega)⟩

/-- C10: the post-loop "Límite de 200 iteraciones alcanzado" branch is dead
code: every DIAMOnD invocation ends with the frontier exhausted, a
non-significant best candidate, or the 100-additions cap — never by running
out of the 200 iterations, because 100 additions arrive first. -/
theorem diamond_limite200_unreachable (G : Graph) (semillas : List String) :
    (ejecutar_diamond G semillas).2.1 = .sinCandidatos ∨
    (ejecutar_diamond G semillas).2.1 = .noSignificativo ∨
    (ejecutar_diamond G semillas).2.1 = .limite100 := by
  have h := diamondLoop_no_limite200 G G.nodes.length semillas.length 200
    ⟨semillas,
     G.nodes.filter (fun n => (semillas.any (fun s => G.adjB s n)) && !semillas.contains n),
     []⟩
    (by show (100 : ℕ) ≤ 0 + 200; omega) (by omega)
  rcases hres : (ejecutar_diamond G semillas).2.1 with _ | _ | _ | _
  · exact Or.inl rfl
  · exact Or.inr (Or.inl rfl)
  · exact Or.inr (Or.inr rfl)
  · exact absurd hres h

/-! ## Seed reconciliation (diamond.py lines 58-69, analisis_funcional.py lines 205-214)

Both engines run the identical reconciliation: canonicalize both sides,
intersect; on a hit take every graph node whose canonical form lies in the
intersection, otherwise fall back to the `n.startswith(s)` heuristic over
canonical seeds; an empty fallback raises `ValueError`, modelled as `none`. -/

def normalize (S : Finset String) (G : Graph) : Option (Finset String) :=
  let sNorm := S.image limpiar_id
  let nNorm := G.nodes.toFinset.image limpiar_id
  let inter := sNorm ∩ nNorm
  if inter.Nonempty then
    some (G.nodes.toFinset.filter (fun n => limpiar_id n ∈ inter))
  else
    let posibles := G.nodes.toFinset.filter (fun n => ∃ s ∈ sNorm, s.isPrefixOf n = true)
    if posibles.Nonempty then some posibles else none

/-- When the seeds already live in the graph and are non-empty, the
intersection branch fires and the reconciled set is every graph node whose
canonical form matches a canonical seed. -/
theorem normalize_of_subset (G : Graph) (S : Finset String) (hS : S.Nonempty)
    (hsub : S ⊆ G.nodes.toFinset) :
    normalize S G =
      some (G.nodes.toFinset.filter (fun n => limpiar_id n ∈ S.image limpiar_id)) := by
  simp only [normalize]
  have hinter : S.image limpiar_id ∩ G.nodes.toFinset.image limpiar_id = S.image limpiar_id :=
    Finset.inter_eq_left.mpr (Finset.image_subset_image hsub)
  rw [hinter, if_pos (hS.image limpiar_id)]

/-- C8: the reconciliation is idempotent on seed sets drawn from the graph:
feeding its output back in (same graph) returns that output unchanged. -/
theorem normalize_idempotent (G : Graph) (S : Finset String)
    (hsub : S ⊆ G.nodes.toFinset) :
    (normalize S G).bind (fun R => normalize R G) = normalize S G := by
  by_cases hS : S.Nonempty
  · have h1 := normalize_of_subset G S hS hsub
    have hRsub : G.nodes.toFinset.filter (fun n => limpiar_id n ∈ S.image limpiar_id) ⊆
        G.nodes.toFinset := Finset.filter_subset _ _
    have hRne : (G.nodes.toFinset.filter
        (fun n => limpiar_id n ∈ S.image limpiar_id)).Nonempty := by
      obtain ⟨s, hs⟩ := hS
      exact ⟨s, Finset.mem_filter.mpr ⟨hsub hs, Finset.mem_image_of_mem limpiar_id hs⟩⟩
    have hRim : (G.nodes.toFinset.filter
          (fun n => limpiar_id n ∈ S.image limpiar_id)).image limpiar_id =
        S.image limpiar_id := by
      apply Finset.Subset.antisymm
      · intro y hy
        obtain ⟨n, hn, rfl⟩ := Finset.mem_image.mp hy
        exact (Finset.mem_filter.mp hn).2
      · intro y hy
        obtain ⟨s, hs, rfl⟩ := Finset.mem_image.mp hy
        exact Finset.mem_image_of_mem limpiar_id
          (Finset.mem_filter.mpr ⟨hsub hs, Finset.mem_image_of_mem limpiar_id hs⟩)
    have h2 : normalize (G.nodes.toFinset.filter
        (fun n => limpiar_id n ∈ S.image limpiar_id)) G =
        some (G.nodes.toFinset.filter (fun n => limpiar_id n ∈ S.image limpiar_id)) := by
      rw [normalize_of_subset G _ hRne hRsub, hRim]
    rw [h1]
    exact h2
  · rw [Finset.not_nonempty_iff_eq_empty] at hS
    subst hS
    have h1 : normalize ∅ G = none := by
      simp [normalize]
    rw [h1]
    rfl

/-- Witness for `normalize_idempotent` on a one-node graph with its node as
the seed set. -/
theorem normalize_idempotent_witness :
    (normalize {"a"} ⟨["a"], []⟩).bind (fun R => normalize R ⟨["a"], []⟩) =
      normalize {"a"} ⟨["a"], []⟩ :=
  normalize_idempotent ⟨["a"], []⟩ {"a"} (by decide)

/-! ## Output orderings (C9)

DIAMOnD's result table (diamond.py lines 123-131) lists the remaining seeds
through `sorted(semillas_restantes)` — an explicit sort — followed by the
added nodes in addition order.  GUILD's flat gene list
(analisis_funcional.py lines 247-249) is `list(semillas) + candidatos`: its
seed prefix is whatever enumeration Python's set iteration happens to yield,
modelled here as an explicit `seedEnum` parameter. -/

def guild_genes (seedEnum : List String) (ranked : List String) (topk : ℕ) : List String :=
  seedEnum ++ (ranked.filter (fun g => !seedEnum.contains g)).take topk

def diamond_seed_rows (restantes : Finset String) : List String :=
  restantes.sort (· ≤ ·)

/-- C9 (amended): DIAMOnD's seed rows are an explicit sort, a function of the
seed set alone; GUILD's gene list is enumeration-invariant only past its seed
prefix — the prefix is exactly the internal set enumeration, so the file's
ordering is not a function of the seed *set*. -/
theorem output_order_determinism :
    (∀ (e1 e2 ranked : List String) (topk : ℕ), e1.toFinset = e2.toFinset →
      (guild_genes e1 ranked topk).take e1.length = e1 ∧
      (guild_genes e1 ranked topk).drop e1.length =
        (guild_genes e2 ranked topk).drop e2.length) ∧
    (∀ restantes : Finset String, List.Sorted (· ≤ ·) (diamond_seed_rows restantes)) := by
  constructor
  · intro e1 e2 ranked topk he
    have hcont : ∀ g, e1.contains g = e2.contains g := by
      intro g
      show List.elem g e1 = List.elem g e2
      rw [List.elem_eq_mem, List.elem_eq_mem]
      exact decide_eq_decide.mpr (by rw [← List.mem_toFinset, ← List.mem_toFinset, he])
    constructor
    · exact List.take_left e1 _
    · rw [guild_genes, guild_genes, List.drop_left, List.drop_left]
      congr 1
      exact List.filter_congr (fun x _ => by rw [hcont x])
  · intro restantes
    exact Finset.sort_sorted _ _

/-- C9 counterexample: two enumerations of the same two-element seed set give
different GUILD gene lists, so the emitted ordering depends on the internal
set iteration order, and two runs enumerating the set differently disagree. -/
theorem guild_genes_set_order_dependent :
    (["a", "b"] : List String).toFinset = (["b", "a"] : List String).toFinset ∧
    guild_genes ["a", "b"] [] 100 ≠ guild_genes ["b", "a"] [] 100 := by
  refine ⟨by decide, by decide⟩

/-- Witness for `output_order_determinism` at two enumerations of the same
seed set. -/
theorem output_order_determinism_witness :
    (guild_genes ["a", "b"] ["c"] 100).take 2 = ["a", "b"] ∧
    (guild_genes ["a", "b"] ["c"] 100).drop 2 = (guild_genes ["b", "a"] ["c"] 100).drop 2 :=
  output_order_determinism.1 ["a", "b"] ["b", "a"] ["c"] 100 (by decide)

/-! ## GUILD / Random Walk with Restart (analisis_funcional.py lines 216-240)

The sparse matrix is built from `G.edges()`: each edge `(u, v)` pushes a 1
into entries `(v, u)` and `(u, v)` of the COO triplet lists, and duplicates
sum.  Column sums equal to zero are replaced by 1 before forming
`W = A @ diags(1 / col_sums)`, so isolated nodes keep an all-zero column. -/

/-- Entry `(i, j)` of the symmetric adjacency-count matrix `A` (lines 219-224). -/
def Amat (G : Graph) (i j : Fin G.nodes.length) : ℚ :=
  ((G.edges.countP (fun e => e.1 == G.nodes.get j && e.2 == G.nodes.get i) +
    G.edges.countP (fun e => e.1 == G.nodes.get i && e.2 == G.nodes.get j) : ℕ) : ℚ)

/-- `col_sums = A.sum(axis=0)` (line 225). -/
def colSum (G : Graph) (j : Fin G.nodes.length) : ℚ := ∑ i, Amat G i j

/-- `W = A @ diags(1.0 / col_sums)` with zero sums replaced by 1 (lines 226-227). -/
def Wmat (G : Graph) (i j : Fin G.nodes.length) : ℚ :=
  Amat G i j / (if colSum G j = 0 then 1 else colSum G j)

/-- Restart vector `r` (lines 230-232): uniform `1/len(seeds_idx)` on the
seed indices, zero elsewhere. -/
def restartVec (G : Graph) (semillas : Finset String) (i : Fin G.nodes.length) : ℚ :=
  if G.nodes.get i ∈ semillas then
    1 / ((semillas.filter (fun s => s ∈ G.nodes)).card : ℚ)
  else 0

/-- `np.linalg.norm(p_new - p, 1)`. -/
def l1dist {n : ℕ} (p q : Fin n → ℚ) : ℚ := ∑ i, |p i - q i|

/-- One RWR update `p_new = (1 - alpha) * (W @ p) + alpha * r` (line 237). -/
def rwrStep {n : ℕ} (W : Fin n → Fin n → ℚ) (alpha : ℚ) (r p : Fin n → ℚ) :
    Fin n → ℚ :=
  fun i => (1 - alpha) * (∑ j, W i j * p j) + alpha * r i

/-- The pure recurrence `p₀ = r`, `p_{t+1} = (1 - alpha)·W·p_t + alpha·r`. -/
def rwrIter {n : ℕ} (W : Fin n → Fin n → ℚ) (alpha : ℚ) (r : Fin n → ℚ) : ℕ → Fin n → ℚ
  | 0 => r
  | t + 1 => rwrStep W alpha r (rwrIter W alpha r t)

/-- The loop of lines 235-240: up to `max_iter` passes, each computing
`p_new` and returning it at once if the L1 change is below `tol`, else
carrying it into the next pass; fuel exhaustion returns the current vector. -/
def rwrLoop {n : ℕ} (W : Fin n → Fin n → ℚ) (alpha tol : ℚ) (r : Fin n → ℚ) :
    ℕ → (Fin n → ℚ) → Fin n → ℚ
  | 0, p => p
  | fuel + 1, p =>
    let p_new := rwrStep W alpha r p
    if l1dist p_new p < tol then p_new else rwrLoop W alpha tol r fuel p_new

/-- `ejecutar_guild` from the reconciled seed set on, at the defaults
`alpha = 0.5`, `tol = 1e-8`, `max_iter = 200` of line 182-183. -/
def ejecutar_guild (G : Graph) (semillas : Finset String) : Fin G.nodes.length → ℚ :=
  rwrLoop (Wmat G) (1/2) (1/100000000) (restartVec G semillas) 200 (restartVec G semillas)

/-- `decide (‖p_{t+1} - p_t‖₁ < tol)` as a Boolean convergence trace. -/
def convB {n : ℕ} (W : Fin n → Fin n → ℚ) (alpha tol : ℚ) (r : Fin n → ℚ) (t : ℕ) : Bool :=
  decide (l1dist (rwrIter W alpha r (t + 1)) (rwrIter W alpha r t) < tol)

/-- First index `t` in `[s, s + f)` with `cb t = true`, if any. -/
def firstHit (cb : ℕ → Bool) : ℕ → ℕ → Option ℕ
  | 0, _ => none
  | f + 1, s => if cb s then some s else firstHit cb f (s + 1)

/-- The iteration index whose vector the loop returns: one past the first
convergent step, or the cap when no step converges within it. -/
def stopTime (cb : ℕ → Bool) (maxIter : ℕ) : ℕ :=
  match firstHit cb maxIter 0 with
  | some t => t + 1
  | none => maxIter

theorem rwrLoop_conv {n : ℕ} (W : Fin n → Fin n → ℚ) (alpha tol : ℚ) (r : Fin n → ℚ)
    (fuel : ℕ) (p : Fin n → ℚ) (hc : l1dist (rwrStep W alpha r p) p < tol) :
    rwrLoop W alpha tol r (fuel + 1) p = rwrStep W alpha r p := by
  show (if l1dist (rwrStep W alpha r p) p < tol then rwrStep W alpha r p
        else rwrLoop W alpha tol r fuel (rwrStep W alpha r p)) = rwrStep W alpha r p
  rw [if_pos hc]

theorem rwrLoop_cont {n : ℕ} (W : Fin n → Fin n → ℚ) (alpha tol : ℚ) (r : Fin n → ℚ)
    (fuel : ℕ) (p : Fin n → ℚ) (hc : ¬ l1dist (rwrStep W alpha r p) p < tol) :
    rwrLoop W alpha tol r (fuel + 1) p = rwrLoop W alpha tol r fuel (rwrStep W alpha r p) := by
  show (if l1dist (rwrStep W alpha r p) p < tol then rwrStep W alpha r p
        else rwrLoop W alpha tol r fuel (rwrStep W alpha r p)) =
      rwrLoop W alpha tol r fuel (rwrStep W alpha r p)
  rw [if_neg hc]

theorem firstHit_some (cb : ℕ → Bool) :
    ∀ (f s t : ℕ), firstHit cb f s = some t →
      s ≤ t ∧ t < s + f ∧ cb t = true ∧ ∀ u, s ≤ u → u < t → cb u = false := by
  intro f
  induction f with
  | zero => intro s t h; cases h
  | succ f ih =>
    intro s t h
    rw [firstHit] at h
    by_cases hcs : cb s = true
    · rw [if_pos hcs] at h
      have hst : s = t := Option.some.inj h
      subst hst
      exact ⟨le_refl s, by omega, hcs, fun u h1 h2 => absurd (lt_of_le_of_lt h1 h2) (lt_irrefl s)⟩
    · rw [if_neg hcs] at h
      obtain ⟨h1, h2, h3, h4⟩ := ih (s + 1) t h
      refine ⟨by omega, by omega, h3, fun u hu1 hu2 => ?_⟩
      rcases Nat.eq_or_lt_of_le hu1 with rfl | hlt
      · exact Bool.not_eq_true _ ▸ (by simpa using hcs)
      · exact h4 u hlt hu2

theorem firstHit_none_all (cb : ℕ → Bool) :
    ∀ (f s : ℕ), firstHit cb f s = none → ∀ u, s ≤ u → u < s + f → cb u = false := by
  intro f
  induction f with
  | zero => intro s _ u h1 h2; omega
  | succ f ih =>
    intro s h u h1 h2
    rw [firstHit] at h
    by_cases hcs : cb s = true
    · rw [if_pos hcs] at h; cases h
    · rw [if_neg hcs] at h
      rcases Nat.eq_or_lt_of_le h1 with rfl | hlt
      · simpa using hcs
      · exact ih (s + 1) h u hlt (by omega)

theorem firstHit_eq_none (cb : ℕ → Bool) :
    ∀ (f s : ℕ), (∀ u, s ≤ u → u < s + f → cb u = false) → firstHit cb f s = none := by
  intro f
  induction f with
  | zero => intro s _; rfl
  | succ f ih =>
    intro s hall
    rw [firstHit]
    rw [if_neg (by rw [hall s (le_refl s) (by omega)]; simp)]
    exact ih (s + 1) (fun u h1 h2 => hall u (by omega) (by omega))

/-- The loop, started on the `s`-th iterate, lands exactly on the iterate one
past the first convergent step within the remaining fuel, or `s + fuel` when
none converges. -/
theorem rwrLoop_eq_iter {n : ℕ} (W : Fin n → Fin n → ℚ) (alpha tol : ℚ) (r : Fin n → ℚ) :
    ∀ (f s : ℕ),
      rwrLoop W alpha tol r f (rwrIter W alpha r s) =
        rwrIter W alpha r
          (match firstHit (convB W alpha tol r) f s with
           | some t => t + 1
           | none => s + f) := by
  intro f
  induction f with
  | zero => intro s; rfl
  | succ f ih =>
    intro s
    by_cases hc : l1dist (rwrIter W alpha r (s + 1)) (rwrIter W alpha r s) < tol
    · have hcb : convB W alpha tol r s = true := decide_eq_true hc
      have hfh : firstHit (convB W alpha tol r) (f + 1) s = some s := by
        rw [firstHit, if_pos hcb]
      rw [hfh]
      exact rwrLoop_conv W alpha tol r f (rwrIter W alpha r s) hc
    · have hcb : convB W alpha tol r s = true → False := fun h => hc (of_decide_eq_true h)
      have hcb' : ¬ (convB W alpha tol r s = true) := hcb
      have hfh : firstHit (convB W alpha tol r) (f + 1) s =
          firstHit (convB W alpha tol r) f (s + 1) := by
        rw [firstHit, if_neg hcb']
      rw [hfh]
      have hstep : rwrLoop W alpha tol r (f + 1) (rwrIter W alpha r s) =
          rwrLoop W alpha tol r f (rwrIter W alpha r (s + 1)) :=
        rwrLoop_cont W alpha tol r f (rwrIter W alpha r s) hc
      rw [hstep, ih (s + 1)]
      rcases hv : firstHit (convB W alpha tol r) f (s + 1) with _ | t
      · have : s + 1 + f = s + (f + 1) := by omega
        rw [this]
      · rfl

/-- C4: `ejecutar_guild` returns exactly the `stopTime`-th iterate of the
recurrence `p₀ = r`, `p_{t+1} = (1 - α)·W·p_t + α·r` at the defaults
`α = 1/2`, `tol = 1e-8`; `stopTime` never exceeds the 200-pass cap, no step
strictly before the stopping one was already convergent (the loop stops as
soon as the L1 change drops below `tol`), and when no step converges within
the cap the loop still returns the 200th iterate rather than failing. -/
theorem guild_rwr_characterization (G : Graph) (semillas : Finset String) :
    ejecutar_guild G semillas =
      rwrIter (Wmat G) (1/2) (restartVec G semillas)
        (stopTime (convB (Wmat G) (1/2) (1/100000000) (restartVec G semillas)) 200) ∧
    stopTime (convB (Wmat G) (1/2) (1/100000000) (restartVec G semillas)) 200 ≤ 200 ∧
    (∀ t, t + 1 < stopTime (convB (Wmat G) (1/2) (1/100000000) (restartVec G semillas)) 200 →
      ¬ l1dist (rwrIter (Wmat G) (1/2) (restartVec G semillas) (t + 1))
          (rwrIter (Wmat G) (1/2) (restartVec G semillas) t) < 1/100000000) ∧
    ((∀ t, t < 200 → convB (Wmat G) (1/2) (1/100000000) (restartVec G semillas) t = false) →
      ejecutar_guild G semillas = rwrIter (Wmat G) (1/2) (restartVec G semillas) 200) := by
  have hmain := rwrLoop_eq_iter (Wmat G) (1/2) (1/100000000) (restartVec G semillas) 200 0
  have hchar : ejecutar_guild G semillas =
      rwrIter (Wmat G) (1/2) (restartVec G semillas)
        (stopTime (convB (Wmat G) (1/2) (1/100000000) (restartVec G semillas)) 200) := by
    have hstart : ejecutar_guild G semillas =
        rwrLoop (Wmat G) (1/2) (1/100000000) (restartVec G semillas) 200
          (rwrIter (Wmat G) (1/2) (restartVec G semillas) 0) := rfl
    rw [hstart, hmain, stopTime]
  refine ⟨hchar, ?_, ?_, ?_⟩
  · rw [stopTime]
    rcases hv : firstHit (convB (Wmat G) (1/2) (1/100000000) (restartVec G semillas)) 200 0
      with _ | t
    · exact le_refl 200
    · have := (firstHit_some _ 200 0 t hv).2.1
      show t + 1 ≤ 200
      omega
  · intro t ht
    rw [stopTime] at ht
    rcases hv : firstHit (convB (Wmat G) (1/2) (1/100000000) (restartVec G semillas)) 200 0
      with _ | t0
    · rw [hv] at ht
      have ht' : t + 1 < 200 := ht
      have hfalse := firstHit_none_all _ 200 0 hv t (by omega) (by omega)
      exact of_decide_eq_false hfalse
    · rw [hv] at ht
      have ht' : t + 1 < t0 + 1 := ht
      have hfalse := (firstHit_some _ 200 0 t0 hv).2.2.2 t (by omega) (by omega)
      exact of_decide_eq_false hfalse
  · intro hall
    have hnone : firstHit (convB (Wmat G) (1/2) (1/100000000) (restartVec G semillas)) 200 0 =
        none :=
      firstHit_eq_none _ 200 0 (fun u _ hu => hall u (by omega))
    rw [hchar, stopTime, hnone]

/-! ## Mass conservation of the RWR iteration (C5)

`W`'s columns sum to 1 except at isolated nodes, whose columns (and, by
symmetry of `A`, rows) are zero; as long as the restart vector puts no mass
on isolated nodes, total mass 1 and non-negativity are preserved. -/

theorem Amat_symm (G : Graph) (i j : Fin G.nodes.length) : Amat G i j = Amat G j i := by
  rw [Amat, Amat, Nat.add_comm]

theorem Amat_nonneg (G : Graph) (i j : Fin G.nodes.length) : 0 ≤ Amat G i j := by
  rw [Amat]
  exact Nat.cast_nonneg _

theorem colSum_nonneg (G : Graph) (j : Fin G.nodes.length) : 0 ≤ colSum G j :=
  Finset.sum_nonneg (fun i _ => Amat_nonneg G i j)

theorem Amat_eq_zero_of_colSum (G : Graph) (j : Fin G.nodes.length)
    (h : colSum G j = 0) (i : Fin G.nodes.length) : Amat G i j = 0 :=
  (Finset.sum_eq_zero_iff_of_nonneg (fun i _ => Amat_nonneg G i j)).mp h i (Finset.mem_univ i)

theorem Wmat_nonneg (G : Graph) (i j : Fin G.nodes.length) : 0 ≤ Wmat G i j := by
  rw [Wmat]
  apply div_nonneg (Amat_nonneg G i j)
  by_cases h : colSum G j = 0
  · rw [if_pos h]; norm_num
  · rw [if_neg h]; exact colSum_nonneg G j

theorem Wmat_col (G : Graph) (j : Fin G.nodes.length) :
    (∑ i, Wmat G i j) = if colSum G j = 0 then 0 else 1 := by
  by_cases h : colSum G j = 0
  · rw [if_pos h]
    apply Finset.sum_eq_zero
    intro i _
    rw [Wmat, Amat_eq_zero_of_colSum G j h i, zero_div]
  · rw [if_neg h]
    have hdiv : (∑ i, Wmat G i j) = (∑ i, Amat G i j) / colSum G j := by
      rw [Finset.sum_div]
      refine Finset.sum_congr rfl (fun i _ => ?_)
      rw [Wmat, if_neg h]
    rw [hdiv]
    exact div_self h

theorem Wmat_row_zero (G : Graph) (j : Fin G.nodes.length) (h : colSum G j = 0)
    (k : Fin G.nodes.length) : Wmat G j k = 0 := by
  rw [Wmat, Amat_symm, Amat_eq_zero_of_colSum G j h k, zero_div]

/-- The invariant of one RWR pass: non-negative entries, total mass 1, and
no mass on nodes with an all-zero `W` column. -/
def massOK (G : Graph) (p : Fin G.nodes.length → ℚ) : Prop :=
  (∀ i, 0 ≤ p i) ∧ (∑ i, p i) = 1 ∧ (∀ j, colSum G j = 0 → p j = 0)

theorem rwrStep_massOK (G : Graph) (r : Fin G.nodes.length → ℚ) (hr : massOK G r)
    (p : Fin G.nodes.length → ℚ) (hp : massOK G p) :
    massOK G (rwrStep (Wmat G) (1/2) r p) := by
  obtain ⟨hr1, hr2, hr3⟩ := hr
  obtain ⟨hp1, hp2, hp3⟩ := hp
  refine ⟨?_, ?_, ?_⟩
  · intro i
    show 0 ≤ (1 - 1/2) * (∑ j, Wmat G i j * p j) + (1/2 : ℚ) * r i
    have h1 : 0 ≤ ∑ j, Wmat G i j * p j :=
      Finset.sum_nonneg (fun j _ => mul_nonneg (Wmat_nonneg G i j) (hp1 j))
    have h2 := hr1 i
    have hhalf : (0 : ℚ) ≤ 1 - 1/2 := by norm_num
    exact add_nonneg (mul_nonneg hhalf h1) (mul_nonneg (by norm_num) h2)
  · show (∑ i, ((1 - 1/2) * (∑ j, Wmat G i j * p j) + (1/2 : ℚ) * r i)) = 1
    rw [Finset.sum_add_distrib, ← Finset.mul_sum, ← Finset.mul_sum]
    have hswap : (∑ i, ∑ j, Wmat G i j * p j) = ∑ j, (∑ i, Wmat G i j) * p j := by
      rw [Finset.sum_comm]
      refine Finset.sum_congr rfl (fun j _ => ?_)
      rw [Finset.sum_mul]
    have hcol : (∑ j, (∑ i, Wmat G i j) * p j) = ∑ j, p j := by
      refine Finset.sum_congr rfl (fun j _ => ?_)
      rw [Wmat_col]
      by_cases h : colSum G j = 0
      · rw [if_pos h, hp3 j h, mul_zero]
      · rw [if_neg h, one_mul]
    rw [hswap, hcol, hp2, hr2]
    norm_num
  · intro j hj
    show (1 - 1/2) * (∑ k, Wmat G j k * p k) + (1/2 : ℚ) * r j = 0
    have hz : (∑ k, Wmat G j k * p k) = 0 :=
      Finset.sum_eq_zero (fun k _ => by rw [Wmat_row_zero G j hj k, zero_mul])
    rw [hz, hr3 j hj]
    norm_num

theorem card_filter_get_mem (G : Graph) (S : Finset String) (hnd : G.nodes.Nodup)
    (hsub : ∀ s ∈ S, s ∈ G.nodes) :
    (Finset.univ.filter (fun i : Fin G.nodes.length => G.nodes.get i ∈ S)).card = S.card := by
  apply Finset.card_bij (fun i _ => G.nodes.get i)
  · intro i hi
    exact (Finset.mem_filter.mp hi).2
  · intro i _ j _ hij
    exact List.nodup_iff_injective_get.mp hnd hij
  · intro s hs
    obtain ⟨i, hi⟩ := List.get_of_mem (hsub s hs)
    exact ⟨i, Finset.mem_filter.mpr ⟨Finset.mem_univ i, by rw [hi]; exact hs⟩, hi⟩

theorem restartVec_massOK (G : Graph) (semillas : Finset String)
    (hnd : G.nodes.Nodup) (hsub : ∀ s ∈ semillas, s ∈ G.nodes) (hne : semillas.Nonempty)
    (hseed : ∀ i, G.nodes.get i ∈ semillas → colSum G i ≠ 0) :
    massOK G (restartVec G semillas) := by
  have hfilter : semillas.filter (fun s => s ∈ G.nodes) = semillas :=
    Finset.filter_eq_self.mpr hsub
  have hcardnz : ((semillas.card : ℚ)) ≠ 0 := by
    have := Finset.card_pos.mpr hne
    positivity
  refine ⟨?_, ?_, ?_⟩
  · intro i
    rw [restartVec]
    by_cases h : G.nodes.get i ∈ semillas
    · rw [if_pos h]
      positivity
    · rw [if_neg h]
  · have hval : ∀ i, restartVec G semillas i =
        if G.nodes.get i ∈ semillas then 1 / (semillas.card : ℚ) else 0 := by
      intro i
      rw [restartVec, hfilter]
    rw [Finset.sum_congr rfl (fun i _ => hval i), Finset.sum_ite, Finset.sum_const,
      Finset.sum_const_zero, add_zero, card_filter_get_mem G semillas hnd hsub,
      nsmul_eq_mul]
    field_simp
  · intro j hj
    rw [restartVec]
    by_cases h : G.nodes.get j ∈ semillas
    · exact absurd hj (hseed j h)
    · rw [if_neg h]

/-- A step-closed predicate survives the whole loop. -/
theorem rwrLoop_preserves {n : ℕ} (W : Fin n → Fin n → ℚ) (alpha tol : ℚ) (r : Fin n → ℚ)
    (Q : (Fin n → ℚ) → Prop) (hstep : ∀ p, Q p → Q (rwrStep W alpha r p)) :
    ∀ (fuel : ℕ) (p : Fin n → ℚ), Q p → Q (rwrLoop W alpha tol r fuel p) := by
  intro fuel
  induction fuel with
  | zero => intro p hp; exact hp
  | succ fuel ih =>
    intro p hp
    show Q (if l1dist (rwrStep W alpha r p) p < tol then rwrStep W alpha r p
            else rwrLoop W alpha tol r fuel (rwrStep W alpha r p))
    by_cases hc : l1dist (rwrStep W alpha r p) p < tol
    · rw [if_pos hc]; exact hstep p hp
    · rw [if_neg hc]; exact ih _ (hstep p hp)

/-- C5 (amended): when every reconciled seed is a graph node with at least
one incident edge (a non-zero `A`-column), the RWR iterates are non-negative
with total mass exactly 1 at every iteration, and the returned vector's total
mass is within 1e-6 of 1 (it is exactly 1). -/
theorem guild_scores_nonneg_sum_one (G : Graph) (semillas : Finset String)
    (hnd : G.nodes.Nodup) (hsub : ∀ s ∈ semillas, s ∈ G.nodes) (hne : semillas.Nonempty)
    (hseed : ∀ i, G.nodes.get i ∈ semillas → colSum G i ≠ 0) :
    (∀ t i, 0 ≤ rwrIter (Wmat G) (1/2) (restartVec G semillas) t i) ∧
    (∀ t, (∑ i, rwrIter (Wmat G) (1/2) (restartVec G semillas) t i) = 1) ∧
    |(∑ i, ejecutar_guild G semillas i) - 1| ≤ 1/1000000 := by
  have hr := restartVec_massOK G semillas hnd hsub hne hseed
  have hiter : ∀ t, massOK G (rwrIter (Wmat G) (1/2) (restartVec G semillas) t) := by
    intro t
    induction t with
    | zero => exact hr
    | succ t ih => exact rwrStep_massOK G _ hr _ ih
  have hloop : massOK G (ejecutar_guild G semillas) :=
    rwrLoop_preserves (Wmat G) (1/2) (1/100000000) (restartVec G semillas) (massOK G)
      (fun p hp => rwrStep_massOK G _ hr p hp) 200 _ hr
  refine ⟨fun t i => (hiter t).1 i, fun t => (hiter t).2.1, ?_⟩
  rw [hloop.2.1]
  norm_num

/-! ## Concrete RWR runs

`G1` is a single isolated node that is itself the seed — the situation the
spec's scenario B describes.  `Gnosig` (above) is a connected two-node graph. -/

def G1 : Graph := ⟨["a"], []⟩

/-- Reachability along edges, reflexively and transitively. -/
def Reach (G : Graph) : String → String → Prop :=
  Relation.ReflTransGen (fun u v => G.adjB u v = true)

theorem G1_fin_eq (i : Fin G1.nodes.length) : i = ⟨0, by decide⟩ := by
  apply Fin.ext
  show i.val = 0
  have hlt : i.val < 1 := i.isLt
  omega

theorem G1_sum (f : Fin G1.nodes.length → ℚ) : (∑ i, f i) = f ⟨0, by decide⟩ :=
  Fin.sum_univ_one f

theorem G1_restart : restartVec G1 {"a"} = fun _ => 1 := by
  funext i
  rw [G1_fin_eq i]
  rw [restartVec, if_pos (by decide : G1.nodes.get ⟨0, by decide⟩ ∈ ({"a"} : Finset String))]
  rw [show (({"a"} : Finset String).filter (fun s => s ∈ G1.nodes)).card = 1 from by decide]
  norm_num

theorem G1_W (i j : Fin G1.nodes.length) : Wmat G1 i j = 0 := by
  rw [G1_fin_eq i, G1_fin_eq j]
  rw [Wmat, show Amat G1 ⟨0, by decide⟩ ⟨0, by decide⟩ = ((0 : ℕ) : ℚ) from rfl]
  norm_num

theorem G1_step (p : Fin G1.nodes.length → ℚ) :
    rwrStep (Wmat G1) (1/2) (restartVec G1 {"a"}) p = fun _ => 1/2 := by
  funext i
  show (1 - 1/2) * (∑ j, Wmat G1 i j * p j) + (1/2 : ℚ) * restartVec G1 {"a"} i = 1/2
  rw [G1_sum, G1_W, G1_restart]
  norm_num

theorem G1_loop : ejecutar_guild G1 {"a"} = fun _ => 1/2 := by
  have hc1 : ¬ l1dist (rwrStep (Wmat G1) (1/2) (restartVec G1 {"a"}) (restartVec G1 {"a"}))
      (restartVec G1 {"a"}) < 1/100000000 := by
    rw [G1_step, G1_restart, l1dist, G1_sum]
    norm_num
    rw [abs_of_nonneg (by norm_num : (0:ℚ) ≤ 1/2)]
    norm_num
  have h1 : rwrLoop (Wmat G1) (1/2) (1/100000000) (restartVec G1 {"a"}) 200
      (restartVec G1 {"a"}) =
      rwrLoop (Wmat G1) (1/2) (1/100000000) (restartVec G1 {"a"}) 199
        (rwrStep (Wmat G1) (1/2) (restartVec G1 {"a"}) (restartVec G1 {"a"})) :=
    rwrLoop_cont _ _ _ _ 199 _ hc1
  have hc2 : l1dist (rwrStep (Wmat G1) (1/2) (restartVec G1 {"a"})
      (rwrStep (Wmat G1) (1/2) (restartVec G1 {"a"}) (restartVec G1 {"a"})))
      (rwrStep (Wmat G1) (1/2) (restartVec G1 {"a"}) (restartVec G1 {"a"})) < 1/100000000 := by
    rw [G1_step, G1_step, l1dist, G1_sum]
    norm_num
  have h2 : rwrLoop (Wmat G1) (1/2) (1/100000000) (restartVec G1 {"a"}) 199
      (rwrStep (Wmat G1) (1/2) (restartVec G1 {"a"}) (restartVec G1 {"a"})) =
      rwrStep (Wmat G1) (1/2) (restartVec G1 {"a"})
        (rwrStep (Wmat G1) (1/2) (restartVec G1 {"a"}) (restartVec G1 {"a"})) :=
    rwrLoop_conv _ _ _ _ 198 _ hc2
  show rwrLoop (Wmat G1) (1/2) (1/100000000) (restartVec G1 {"a"}) 200 (restartVec G1 {"a"}) =
    fun _ => 1/2
  rw [h1, h2, G1_step]

/-- C5 counterexample: the one-node graph whose single node is the seed
satisfies the claim's reachability condition (every node the walk touches
reaches a seed — itself), yet the converged score vector sums to 1/2, far
outside the 1e-6 tolerance: each pass the isolated seed's mass leaks through
the all-zero column of `W` and only the restart half returns. -/
theorem guild_sum_counterexample :
    (∀ i : Fin G1.nodes.length,
        (∃ t, rwrIter (Wmat G1) (1/2) (restartVec G1 {"a"}) t i ≠ 0) →
        ∃ s ∈ ({"a"} : Finset String), Reach G1 (G1.nodes.get i) s) ∧
    (∑ i, ejecutar_guild G1 {"a"} i) = 1/2 ∧
    ¬ |(∑ i, ejecutar_guild G1 {"a"} i) - 1| ≤ 1/1000000 := by
  refine ⟨?_, ?_, ?_⟩
  · intro i _
    refine ⟨"a", Finset.mem_singleton_self "a", ?_⟩
    rw [G1_fin_eq i]
    exact Relation.ReflTransGen.refl
  · rw [G1_loop, G1_sum]
  · rw [G1_loop, G1_sum]
    norm_num
    rw [abs_of_nonneg (by norm_num : (0:ℚ) ≤ 1/2)]
    norm_num

theorem G1_cb0 : convB (Wmat G1) (1/2) (1/100000000) (restartVec G1 {"a"}) 0 = false := by
  rw [convB, decide_eq_false_iff_not]
  show ¬ l1dist (rwrIter (Wmat G1) (1/2) (restartVec G1 {"a"}) 1)
      (rwrIter (Wmat G1) (1/2) (restartVec G1 {"a"}) 0) < 1/100000000
  rw [show rwrIter (Wmat G1) (1/2) (restartVec G1 {"a"}) 1 = fun _ => 1/2 from G1_step _,
      show rwrIter (Wmat G1) (1/2) (restartVec G1 {"a"}) 0 = restartVec G1 {"a"} from rfl,
      G1_restart, l1dist, G1_sum]
  norm_num
  rw [abs_of_nonneg (by norm_num : (0:ℚ) ≤ 1/2)]
  norm_num

theorem G1_cb1 : convB (Wmat G1) (1/2) (1/100000000) (restartVec G1 {"a"}) 1 = true := by
  rw [convB, decide_eq_true_eq]
  show l1dist (rwrIter (Wmat G1) (1/2) (restartVec G1 {"a"}) 2)
      (rwrIter (Wmat G1) (1/2) (restartVec G1 {"a"}) 1) < 1/100000000
  rw [show rwrIter (Wmat G1) (1/2) (restartVec G1 {"a"}) 2 = fun _ => 1/2 from G1_step _,
      show rwrIter (Wmat G1) (1/2) (restartVec G1 {"a"}) 1 = fun _ => 1/2 from G1_step _,
      l1dist, G1_sum]
  norm_num

theorem G1_stopTime :
    stopTime (convB (Wmat G1) (1/2) (1/100000000) (restartVec G1 {"a"})) 200 = 2 := by
  have h1 : firstHit (convB (Wmat G1) (1/2) (1/100000000) (restartVec G1 {"a"})) 200 0 =
      some 1 := by
    rw [show (200 : ℕ) = 199 + 1 from rfl, firstHit, if_neg (by rw [G1_cb0]; simp)]
    rw [show (199 : ℕ) = 198 + 1 from rfl, firstHit, if_pos G1_cb1]
  rw [stopTime, h1]

/-- Witness for `guild_rwr_characterization`: on `G1` the run converges at
the second iterate (`stopTime = 2`), so the loop had not yet stopped after
the first pass — the first L1 change is 1/2, above the tolerance. -/
theorem guild_rwr_characterization_witness :
    ¬ l1dist (rwrIter (Wmat G1) (1/2) (restartVec G1 {"a"}) (0 + 1))
        (rwrIter (Wmat G1) (1/2) (restartVec G1 {"a"}) 0) < 1/100000000 :=
  (guild_rwr_characterization G1 {"a"}).2.2.1 0 (by rw [G1_stopTime]; norm_num)

/-! ## Edge-list loading (diamond.py lines 45-48, analisis_funcional.py lines 194-197)

    try:
        G = nx.read_edgelist(ruta_red, delimiter=None)
    except Exception:
        G = nx.read_edgelist(ruta_red, delimiter=" ")

`networkx.parse_edgelist` handles each line by stripping the `#` comment,
skipping the line if empty, computing `line.strip().split(delimiter)`,
skipping lines with fewer than two tokens, taking the first two tokens as
the edge and handing any remaining tokens to `ast.literal_eval` as an
edge-data dict — for this repository's identifier/score tokens that parse
always fails, so a line with more than two tokens aborts the load.
`delimiter=None` is Python's whitespace split (empty tokens dropped);
`delimiter=" "` keeps empty tokens.  A raised exception is `none`. -/

def stripComment (line : String) : String :=
  String.mk (line.toList.takeWhile (fun c => c ≠ '#'))

def pyStrip (s : String) : String :=
  String.mk (((s.toList.dropWhile Char.isWhitespace).reverse.dropWhile Char.isWhitespace).reverse)

/-- Python's `str.split(None)`: split on whitespace runs, dropping empties. -/
def splitWS : List Char → List Char → List String
  | [], [] => []
  | [], acc => [String.mk acc.reverse]
  | c :: cs, acc =>
    if c.isWhitespace then
      (if acc = [] then splitWS cs [] else String.mk acc.reverse :: splitWS cs [])
    else splitWS cs (c :: acc)

def pySplitNone (s : String) : List String := splitWS s.toList []

/-- Splitting at every single space, keeping empty tokens. -/
def splitChar : List Char → List Char → List String
  | [], acc => [String.mk acc.reverse]
  | c :: cs, acc =>
    if c = ' ' then String.mk acc.reverse :: splitChar cs []
    else splitChar cs (c :: acc)

/-- Python's `str.split(" ")`: split at each single space, keeping empties. -/
def pySplitSpace (s : String) : List String := splitChar s.toList []

/-- `networkx.parse_edgelist` over already-read lines with the given
tokenizer; `none` models a raised exception. -/
def parse_edgelist (split : String → List String) : List String → Option (List (String × String))
  | [] => some []
  | line :: rest =>
    let line' := stripComment line
    if line' = "" then parse_edgelist split rest
    else
      match split (pyStrip line') with
      | [] => parse_edgelist split rest
      | [_] => parse_edgelist split rest
      | [u, v] => (parse_edgelist split rest).map (fun es => (u, v) :: es)
      | _ :: _ :: _ :: _ => none

/-- The loader both engines share: permissive whitespace parse first, strict
single-space parse only on its failure. -/
def cargar_red (lines : List String) : Option (List (String × String)) :=
  match parse_edgelist pySplitNone lines with
  | some es => some es
  | none => parse_edgelist pySplitSpace lines

/-- Modelled from the spec's words (section 4.1): "the loader tries a strict
delimiter first and falls back to a permissive whitespace split on failure" —
the opposite attempt order. -/
def cargar_red_spec_order (lines : List String) : Option (List (String × String)) :=
  match parse_edgelist pySplitSpace lines with
  | some es => some es
  | none => parse_edgelist pySplitNone lines

/-- C6 counterexample: on the tab-separated line `"a\tb"` the code's loader
(permissive first) reads one edge while the spec-order loader (strict first)
reads none, so the attempt order is observable and the spec describes the
wrong one; and on `"a b c"` the permissive parse fails, the strict fallback
runs — and itself fails, so the fallback path does raise. -/
theorem cargar_red_counterexample :
    cargar_red ["a\tb"] = some [("a", "b")] ∧
    cargar_red_spec_order ["a\tb"] = some [] ∧
    cargar_red ["a\tb"] ≠ cargar_red_spec_order ["a\tb"] ∧
    parse_edgelist pySplitNone ["a b c"] = none ∧
    cargar_red ["a b c"] = none := by
  refine ⟨by decide, by decide, by decide, by decide, by decide⟩

/-- C6 (amended): the shared loader first attempts the permissive
arbitrary-whitespace parse; only when that fails does the strict
single-space parse run, and whatever the fallback produces — including a
failure — is the final outcome, so the fallback path itself can raise. -/
theorem cargar_red_fallback :
    (∀ lines es, parse_edgelist pySplitNone lines = some es → cargar_red lines = some es) ∧
    (∀ lines, parse_edgelist pySplitNone lines = none →
      cargar_red lines = parse_edgelist pySplitSpace lines) ∧
    (∃ lines, parse_edgelist pySplitNone lines = none ∧ cargar_red lines = none) := by
  refine ⟨?_, ?_, ?_⟩
  · intro lines es h
    rw [cargar_red, h]
  · intro lines h
    rw [cargar_red, h]
  · exact ⟨["a b c"], by decide, by decide⟩

/-- Witness for `cargar_red_fallback` at two concrete inputs: a three-token
line routes through the fallback; a clean two-token line never reaches it. -/
theorem cargar_red_fallback_witness :
    cargar_red ["x y z"] = parse_edgelist pySplitSpace ["x y z"] ∧
    cargar_red ["p q"] = some [("p", "q")] :=
  ⟨cargar_red_fallback.2.1 ["x y z"] (by decide),
   cargar_red_fallback.1 ["p q"] [("p", "q")] (by decide)⟩

theorem Gnosig_colSum0 : colSum Gnosig ⟨0, by decide⟩ = 1 := by
  rw [colSum]
  rw [show (∑ k, Amat Gnosig k ⟨0, by decide⟩) =
      Amat Gnosig ⟨0, by decide⟩ ⟨0, by decide⟩ + Amat Gnosig ⟨1, by decide⟩ ⟨0, by decide⟩
    from Fin.sum_univ_two _]
  rw [show Amat Gnosig ⟨0, by decide⟩ ⟨0, by decide⟩ = ((0 : ℕ) : ℚ) from rfl,
      show Amat Gnosig ⟨1, by decide⟩ ⟨0, by decide⟩ = ((1 : ℕ) : ℚ) from rfl]
  norm_num

/-- Witness for `guild_scores_nonneg_sum_one` on the two-node graph `Gnosig`
with its connected node `a` as the seed. -/
theorem guild_scores_nonneg_sum_one_witness :
    (∀ t i, 0 ≤ rwrIter (Wmat Gnosig) (1/2) (restartVec Gnosig {"a"}) t i) ∧
    (∀ t, (∑ i, rwrIter (Wmat Gnosig) (1/2) (restartVec Gnosig {"a"}) t i) = 1) ∧
    |(∑ i, ejecutar_guild Gnosig {"a"} i) - 1| ≤ 1/1000000 :=
  guild_scores_nonneg_sum_one Gnosig {"a"} (by decide) (by decide) (by decide)
    (by
      intro i hi
      have hlt : i.val < 2 := i.isLt
      rcases (by omega : i.val = 0 ∨ i.val = 1) with h | h
      · have hieq : i = ⟨0, by decide⟩ := by
          apply Fin.ext
          show i.val = 0
          omega
        rw [hieq, Gnosig_colSum0]
        norm_num
      · have hieq : i = ⟨1, by decide⟩ := by
          apply Fin.ext
          show i.val = 1
          omega
        rw [hieq] at hi
        exact absurd hi (by decide))

end HAB
